import Mathlib

/-!
Verification of `src/_themes/conan/__init__.py` (a Sphinx theme module).

The module consists of two string constants (`__version__`, `__version_full__`),
a no-op registration hook `setup(app)`, and

  def get_html_theme_path():
      cur_dir = os.path.abspath(os.path.dirname(os.path.dirname(__file__)))
      return [cur_dir]

We shallowly embed the CPython `posixpath` primitives that this line relies on
(`os.path.dirname`, `os.path.normpath`, `os.path.join`, `os.path.abspath`,
`os.path.isabs`), working over `List Char` with `String` wrappers, each
definition mirroring the reference implementation in CPython's `posixpath.py`
with separator `'/'`.  The interpreter-supplied `__file__` value and the
process's current working directory (read by `os.path.abspath` via
`os.getcwd()`) become explicit parameters.  The unused
`import xml.etree.ElementTree as ET` has no observable effect and is not
modelled.
-/

/-- Python `posixpath.isabs(s)`: `s.startswith('/')`, on `List Char`. -/
def isabsL (p : List Char) : Bool :=
  match p with
  | c :: _ => c = '/'
  | [] => false

/-- Python `str.rstrip('/')` on `List Char`: remove all trailing slashes. -/
def rstripSlash (l : List Char) : List Char :=
  (l.reverse.dropWhile (fun c => c = '/')).reverse

/-- Python `posixpath.dirname(p)` on `List Char`.  CPython:
`i = p.rfind('/') + 1; head = p[:i];
if head and head != '/'*len(head): head = head.rstrip('/'); return head`.
The slice `p[:i]` (everything up to and including the last slash, empty if
there is no slash) is computed here by dropping, from the right, every
character up to the first slash. -/
def dirnameL (p : List Char) : List Char :=
  let head := (p.reverse.dropWhile (fun c => c ≠ '/')).reverse
  if head ≠ [] ∧ ¬ (head.all (fun c => c = '/')) then rstripSlash head else head

/-- Python `p.split('/')` on `List Char`: split at every slash, keeping
empty pieces, as CPython's `str.split` with an explicit separator does. -/
def splitSlash : List Char → List (List Char)
  | [] => [[]]
  | c :: rest =>
    match splitSlash rest with
    | [] => [[]]
    | h :: t => if c = '/' then [] :: h :: t else (c :: h) :: t

/-- Python `'/'.join(comps)` on `List (List Char)`. -/
def joinComps : List (List Char) → List Char
  | [] => []
  | [c] => c
  | c :: rest => c ++ '/' :: joinComps rest

/-- One iteration of the component loop in CPython's `posixpath.normpath`:
skip `''` and `'.'`; append any component other than `'..'`, and `'..'` when
the path is relative with no collected components or the previous collected
component is itself `'..'`; otherwise pop the previous component. -/
def normStep (initSlashes : Nat) (acc : List (List Char)) (comp : List Char) :
    List (List Char) :=
  if comp = [] ∨ comp = ['.'] then acc
  else if comp ≠ ['.', '.'] ∨ (initSlashes = 0 ∧ acc = []) ∨
      (acc ≠ [] ∧ acc.getLast? = some ['.', '.']) then acc ++ [comp]
  else acc.dropLast

/-- Python `posixpath.normpath(path)` on `List Char`, mirroring CPython:
empty path gives `'.'`; one leading slash is kept, exactly two leading
slashes are kept as two (POSIX), three or more collapse to one; components
are filtered by `normStep`; an empty final result gives `'.'`. -/
def normpathL (path : List Char) : List Char :=
  if path = [] then ['.']
  else
    let initSlashes : Nat :=
      if isabsL path then
        if path.take 2 = ['/', '/'] ∧ ¬ (path.take 3 = ['/', '/', '/']) then 2
        else 1
      else 0
    let comps := splitSlash path
    let newComps := comps.foldl (normStep initSlashes) []
    let joined := List.replicate initSlashes '/' ++ joinComps newComps
    if joined = [] then ['.'] else joined

/-- Python `posixpath.join(path, b)` (two-argument case, as used by
`abspath`) on `List Char`: an absolute `b` replaces `path`; otherwise `b` is
appended, inserting a slash unless `path` is empty or already ends in one. -/
def joinL (path b : List Char) : List Char :=
  if isabsL b then b
  else if path = [] ∨ path.getLast? = some '/' then path ++ b
  else path ++ '/' :: b

/-- Python `posixpath.abspath(path)` on `List Char`: a relative path is first
joined onto the current working directory (read from the process via
`os.getcwd()`, here an explicit parameter), then normalised. -/
def abspathL (path cwd : List Char) : List Char :=
  if isabsL path then normpathL path else normpathL (joinL cwd path)

namespace os.path

/-- `os.path.isabs` on `String`. -/
def isabs (s : String) : Bool := isabsL s.data

/-- `os.path.dirname` on `String`. -/
def dirname (s : String) : String := ⟨dirnameL s.data⟩

/-- `os.path.normpath` on `String`. -/
def normpath (s : String) : String := ⟨normpathL s.data⟩

/-- `os.path.join` (two arguments) on `String`. -/
def join (a b : String) : String := ⟨joinL a.data b.data⟩

/-- `os.path.abspath` on `String`; `cwd` is the process working directory. -/
def abspath (s cwd : String) : String := ⟨abspathL s.data cwd.data⟩

end os.path

/-- Line 10 of the module: `__version__ = '0.2.0'`. -/
def __version__ : String := "0.2.0"

/-- Line 11 of the module: `__version_full__ = __version__`. -/
def __version_full__ : String := __version__

/-- Python's `None` value, the implicit result of a function body `pass`. -/
inductive NoneType where
  | none
deriving DecidableEq

/-- Lines 14-15: `def setup(app): pass`.  The body raises nothing and
returns `None`; a raising call would be an `Except.error`. -/
def setup {α : Type} (_app : α) : Except String NoneType :=
  Except.ok NoneType.none

/-- Lines 17-20: `get_html_theme_path()`.  `file` is the interpreter-supplied
`__file__` of the module and `cwd` the process working directory consulted by
`os.path.abspath` when its argument is relative. -/
def get_html_theme_path (file cwd : String) : List String :=
  let cur_dir := os.path.abspath (os.path.dirname (os.path.dirname file)) cwd
  [cur_dir]

/-- Observable process state: the working directory and the environment.
The module never writes either. -/
structure ProcessState where
  cwd : String
  environ : List (String × String)
deriving DecidableEq

/-- State-passing form of `setup`: the body `pass` touches no process
state. -/
def setupS {α : Type} (app : α) (s : ProcessState) :
    Except String NoneType × ProcessState :=
  (setup app, s)

/-- State-passing form of `get_html_theme_path`: it reads `s.cwd` (via
`os.getcwd()` inside `abspath`), writes nothing, and none of its string
operations can raise, so the result is always `Except.ok`. -/
def get_html_theme_pathS (file : String) (s : ProcessState) :
    Except String (List String) × ProcessState :=
  (Except.ok (get_html_theme_path file s.cwd), s)

/-- A well-formed path component: nonempty, not `.` or `..`, slash-free.
Every component of a normalised absolute path has this shape. -/
def GoodComp (c : List Char) : Prop :=
  c ≠ [] ∧ c ≠ ['.'] ∧ c ≠ ['.', '.'] ∧ '/' ∉ c

instance (c : List Char) : Decidable (GoodComp c) := by
  unfold GoodComp; infer_instance

/-- A normalised absolute POSIX path: one or two leading slashes (CPython's
`normpath` keeps exactly two, POSIX-style) followed by slash-joined
well-formed components.  Interpreter-provided `__file__` values of modules
loaded from disk have this shape. -/
def NormalizedAbs (p : List Char) : Prop :=
  ∃ k comps, (k = 1 ∨ k = 2) ∧ (∀ c ∈ comps, GoodComp c) ∧
    p = List.replicate k '/' ++ joinComps comps

/-! ### Support lemmas about the path primitives -/

theorem splitSlash_ne_nil (l : List Char) : splitSlash l ≠ [] := by
  cases l with
  | nil => simp [splitSlash]
  | cons c rest =>
    unfold splitSlash
    cases h : splitSlash rest with
    | nil => simp
    | cons h t => by_cases hc : c = '/' <;> simp [hc]

theorem splitSlash_slash_cons (l : List Char) :
    splitSlash ('/' :: l) = [] :: splitSlash l := by
  obtain ⟨a, b, e⟩ : ∃ a b, splitSlash l = a :: b := by
    cases hs : splitSlash l with
    | nil => exact absurd hs (splitSlash_ne_nil l)
    | cons a b => exact ⟨a, b, rfl⟩
  rw [splitSlash, e]
  simp

theorem splitSlash_append_no_slash (c : List Char) (hc : '/' ∉ c)
    (l : List Char) (hd : List Char) (tl : List (List Char))
    (hl : splitSlash l = hd :: tl) :
    splitSlash (c ++ l) = (c ++ hd) :: tl := by
  induction c with
  | nil => simpa using hl
  | cons a c ih =>
    have ha : a ≠ '/' := fun e => hc (e ▸ List.mem_cons_self a c)
    have hrec := ih (fun m => hc (List.mem_cons_of_mem a m))
    show splitSlash (a :: (c ++ l)) = ((a :: c) ++ hd) :: tl
    rw [splitSlash, hrec]
    simp [ha]

theorem joinComps_cons_cons (c d : List Char) (rest : List (List Char)) :
    joinComps (c :: d :: rest) = c ++ '/' :: joinComps (d :: rest) := by
  rfl

theorem joinComps_concat (cs : List (List Char)) (c : List Char) :
    joinComps (cs ++ [c]) = if cs = [] then c else joinComps cs ++ '/' :: c := by
  induction cs with
  | nil => rfl
  | cons a cs ih =>
    cases cs with
    | nil => rfl
    | cons b cs' =>
      have h1 : joinComps ((a :: b :: cs') ++ [c])
          = a ++ '/' :: joinComps ((b :: cs') ++ [c]) :=
        joinComps_cons_cons a b (cs' ++ [c])
      rw [h1, ih]
      simp [joinComps_cons_cons, List.append_assoc]

theorem joinComps_cons_eq_append (c : List Char) (rest : List (List Char)) :
    ∃ r, joinComps (c :: rest) = c ++ r := by
  cases rest with
  | nil => exact ⟨[], by simp [joinComps]⟩
  | cons d rest' => exact ⟨'/' :: joinComps (d :: rest'), joinComps_cons_cons c d rest'⟩

theorem head_joinComps_ne_slash (comps : List (List Char))
    (hg : ∀ c ∈ comps, GoodComp c) (x : Char) (l : List Char)
    (he : joinComps comps = x :: l) : x ≠ '/' := by
  cases comps with
  | nil => simp [joinComps] at he
  | cons c rest =>
    obtain ⟨r, hr⟩ := joinComps_cons_eq_append c rest
    obtain ⟨hc1, _, _, hc4⟩ := hg c (List.mem_cons_self c rest)
    cases c with
    | nil => exact absurd rfl hc1
    | cons y c' =>
      rw [hr] at he
      have : y = x := by simpa using congrArg List.head? he
      intro hx
      exact hc4 (by rw [this, hx]; exact List.mem_cons_self '/' c')

theorem getLast_joinComps_ne_slash (comps : List (List Char)) (hne : comps ≠ [])
    (hg : ∀ c ∈ comps, GoodComp c) :
    ∃ d l, (joinComps comps).reverse = d :: l ∧ d ≠ '/' := by
  obtain ⟨cs, c, rfl⟩ : ∃ cs c, comps = cs ++ [c] := by
    rcases List.eq_nil_or_concat comps with h | ⟨cs, c, h⟩
    · exact absurd h hne
    · exact ⟨cs, c, by simpa [List.concat_eq_append] using h⟩
  have hgc : GoodComp c := hg c (by simp)
  obtain ⟨hc1, _, _, hc4⟩ := hgc
  obtain ⟨c', d, hcd⟩ : ∃ c' d, c.reverse = d :: c' := by
    cases e : c.reverse with
    | nil => exact absurd (by simpa using congrArg List.reverse e) hc1
    | cons d c' => exact ⟨c', d, rfl⟩
  have hd : d ≠ '/' := by
    intro h
    apply hc4
    have : d ∈ c.reverse := by rw [hcd]; exact List.mem_cons_self d c'
    rw [List.mem_reverse] at this
    exact h ▸ this
  rw [joinComps_concat]
  by_cases hcs : cs = []
  · exact ⟨d, c', by simp [hcs, hcd], hd⟩
  · refine ⟨d, c' ++ ('/' :: (joinComps cs).reverse), ?_, hd⟩
    simp [hcs, hcd]

theorem splitSlash_joinComps (comps : List (List Char)) (hne : comps ≠ [])
    (hnos : ∀ c ∈ comps, '/' ∉ c) :
    splitSlash (joinComps comps) = comps := by
  induction comps with
  | nil => exact absurd rfl hne
  | cons c rest ih =>
    cases rest with
    | nil =>
      have h0 : joinComps [c] = c ++ [] := by simp [joinComps]
      rw [h0, splitSlash_append_no_slash c (hnos c (by simp)) [] [] [] rfl]
      simp
    | cons d rest' =>
      rw [joinComps_cons_cons]
      have hrec := ih (by simp) (fun e he => hnos e (List.mem_cons_of_mem c he))
      have h1 : splitSlash ('/' :: joinComps (d :: rest')) = [] :: d :: rest' := by
        rw [splitSlash_slash_cons, hrec]
      rw [splitSlash_append_no_slash c (hnos c (by simp)) _ [] (d :: rest') h1]
      simp

theorem normStep_nil_comp (k : Nat) (acc : List (List Char)) :
    normStep k acc [] = acc := by
  simp [normStep]

theorem normStep_good (k : Nat) (acc : List (List Char)) (c : List Char)
    (hc : GoodComp c) : normStep k acc c = acc ++ [c] := by
  obtain ⟨h1, h2, h3, _⟩ := hc
  unfold normStep
  rw [if_neg, if_pos]
  · exact Or.inl h3
  · rintro (e | e)
    · exact h1 e
    · exact h2 e

theorem foldl_normStep_goods (k : Nat) (comps : List (List Char))
    (hg : ∀ c ∈ comps, GoodComp c) :
    ∀ acc, List.foldl (normStep k) acc comps = acc ++ comps := by
  induction comps with
  | nil => simp
  | cons c rest ih =>
    intro acc
    rw [List.foldl_cons, normStep_good k acc c (hg c (List.mem_cons_self c rest)),
        ih (fun d hd => hg d (List.mem_cons_of_mem c hd))]
    simp

theorem joinComps_shape (comps : List (List Char))
    (hg : ∀ c ∈ comps, GoodComp c) :
    (comps = [] ∧ joinComps comps = []) ∨
      ∃ x l, joinComps comps = x :: l ∧ x ≠ '/' := by
  cases comps with
  | nil => exact Or.inl ⟨rfl, rfl⟩
  | cons c rest =>
    right
    obtain ⟨r, hr⟩ := joinComps_cons_eq_append c rest
    obtain ⟨hc1, -, -, -⟩ := hg c (List.mem_cons_self c rest)
    cases c with
    | nil => exact absurd rfl hc1
    | cons y c' =>
      refine ⟨y, c' ++ r, by simpa using hr, ?_⟩
      exact head_joinComps_ne_slash _ hg y _ (by simpa using hr)

/-- CPython `normpath` is the identity on already-normalised absolute
paths. -/
theorem normalizedAbs_normpath (p : List Char) (h : NormalizedAbs p) :
    normpathL p = p := by
  obtain ⟨k, comps, hk, hg, rfl⟩ := h
  rcases joinComps_shape comps hg with ⟨rfl, hj0⟩ | ⟨x, l, hj, hx⟩
  · rcases hk with rfl | rfl <;> decide
  · have hnos : ∀ c ∈ comps, '/' ∉ c := fun c hc => (hg c hc).2.2.2
    have hcne : comps ≠ [] := by
      intro h0; rw [h0] at hj; simp [joinComps] at hj
    have hsj : splitSlash (joinComps comps) = comps :=
      splitSlash_joinComps comps hcne hnos
    rcases hk with rfl | rfl
    · have e1 : List.replicate 1 '/' ++ joinComps comps = '/' :: x :: l := by
        rw [hj]; rfl
      rw [e1]
      have h1 : splitSlash ('/' :: x :: l) = [] :: comps := by
        rw [splitSlash_slash_cons, ← hj, hsj]
      have h2 : List.foldl (normStep 1) [] ([] :: comps) = comps := by
        rw [List.foldl_cons, normStep_nil_comp]
        simpa using foldl_normStep_goods 1 comps hg []
      simp [normpathL, h1, h2, hx, isabsL, hj]
    · have e1 : List.replicate 2 '/' ++ joinComps comps = '/' :: '/' :: x :: l := by
        rw [hj]; rfl
      rw [e1]
      have h1 : splitSlash ('/' :: '/' :: x :: l) = [] :: [] :: comps := by
        rw [splitSlash_slash_cons, splitSlash_slash_cons, ← hj, hsj]
      have h2 : List.foldl (normStep 2) [] ([] :: [] :: comps) = comps := by
        rw [List.foldl_cons, normStep_nil_comp, List.foldl_cons, normStep_nil_comp]
        simpa using foldl_normStep_goods 2 comps hg []
      simp [normpathL, h1, h2, hx, isabsL, hj]

theorem isabsL_iff (q : List Char) : isabsL q = true ↔ ∃ t, q = '/' :: t := by
  cases q with
  | nil => simp [isabsL]
  | cons c t =>
    constructor
    · intro h
      have hc : c = '/' := by simpa [isabsL] using h
      exact ⟨t, by rw [hc]⟩
    · rintro ⟨t', e⟩
      obtain ⟨rfl, rfl⟩ := List.cons.inj e
      simp [isabsL]

theorem dirnameL_eq (p : List Char) :
    dirnameL p =
      if (p.reverse.dropWhile (fun c => c ≠ '/')).reverse ≠ [] ∧
          ¬ ((p.reverse.dropWhile (fun c => c ≠ '/')).reverse.all
            (fun c => c = '/')) then
        rstripSlash ((p.reverse.dropWhile (fun c => c ≠ '/')).reverse)
      else (p.reverse.dropWhile (fun c => c ≠ '/')).reverse := rfl

theorem dropWhile_ne_slash_append (m l : List Char) (hm : ∀ x ∈ m, x ≠ '/') :
    (m ++ l).dropWhile (fun c => c ≠ '/') = l.dropWhile (fun c => c ≠ '/') := by
  rw [List.dropWhile_append]
  have h0 : m.dropWhile (fun c => c ≠ '/') = [] := by
    rw [List.dropWhile_eq_nil_iff]
    intro x hx
    simpa using hm x hx
  rw [h0]
  simp

theorem dropWhile_slash_head (x : Char) (l : List Char) (hx : x ≠ '/') :
    (x :: l).dropWhile (fun c => c = '/') = x :: l := by
  rw [List.dropWhile_cons]
  simp [hx]

theorem dropWhile_ne_slash_slash_head (l : List Char) :
    ('/' :: l).dropWhile (fun c => c ≠ '/') = '/' :: l := by
  rw [List.dropWhile_cons]
  simp

theorem normpathL_abs_eq (t : List Char) :
    normpathL ('/' :: t) =
      (let i : Nat :=
        if ('/' :: t).take 2 = ['/', '/'] ∧ ¬ (('/' :: t).take 3 = ['/', '/', '/'])
          then 2 else 1;
      if List.replicate i '/' ++
          joinComps (List.foldl (normStep i) [] (splitSlash ('/' :: t))) = [] then
        ['.']
      else
        List.replicate i '/' ++
          joinComps (List.foldl (normStep i) [] (splitSlash ('/' :: t)))) := rfl

theorem isabs_final_if (i : Nat) (hi : i ≠ 0) (J : List Char) :
    isabsL (if List.replicate i '/' ++ J = [] then ['.']
      else List.replicate i '/' ++ J) = true := by
  cases i with
  | zero => exact absurd rfl hi
  | succ n =>
    rw [List.replicate_succ, if_neg (by simp)]
    simp [isabsL]

theorem isabs_normpathL (q : List Char) (h : isabsL q = true) :
    isabsL (normpathL q) = true := by
  obtain ⟨t, rfl⟩ := (isabsL_iff q).1 h
  rw [normpathL_abs_eq]
  by_cases hc : ('/' :: t).take 2 = ['/', '/'] ∧ ¬ (('/' :: t).take 3 = ['/', '/', '/'])
  · simp only [hc, if_true]
    exact isabs_final_if 2 (by decide) _
  · simp only [hc, if_false]
    exact isabs_final_if 1 (by decide) _

theorem isabs_joinL (cwd b : List Char) (h : isabsL cwd = true) :
    isabsL (joinL cwd b) = true := by
  obtain ⟨t, rfl⟩ := (isabsL_iff cwd).1 h
  rw [show joinL ('/' :: t) b =
      if isabsL b = true then b
      else if ('/' :: t) = [] ∨ ('/' :: t).getLast? = some '/' then ('/' :: t) ++ b
      else ('/' :: t) ++ '/' :: b from rfl]
  by_cases hb : isabsL b = true
  · rw [if_pos hb]
    exact hb
  · rw [if_neg hb]
    by_cases hg2 : ('/' :: t).getLast? = some '/'
    · rw [if_pos (Or.inr hg2)]
      simp [isabsL]
    · rw [if_neg (fun h0 => h0.elim (fun e => List.cons_ne_nil '/' t e) hg2)]
      simp [isabsL]

theorem abspathL_of_isabs (p cwd : List Char) (h : isabsL p = true) :
    abspathL p cwd = normpathL p := by
  simp [abspathL, h]

theorem isabs_abspathL (p cwd : List Char) (h : isabsL cwd = true) :
    isabsL (abspathL p cwd) = true := by
  by_cases hp : isabsL p = true
  · rw [abspathL_of_isabs p cwd hp]
    exact isabs_normpathL p hp
  · have hj := isabs_joinL cwd p h
    simp only [abspathL, hp]
    simp only [Bool.false_eq_true, if_false]
    exact isabs_normpathL _ hj

theorem isabs_dirnameL (p : List Char) (h : isabsL p = true) :
    isabsL (dirnameL p) = true := by
  obtain ⟨t, rfl⟩ := (isabsL_iff p).1 h
  rw [dirnameL_eq]
  have hrev : ('/' :: t).reverse = t.reverse ++ ['/'] := by simp
  rw [hrev, List.dropWhile_append]
  by_cases hd : (t.reverse.dropWhile (fun c => c ≠ '/')).isEmpty = true
  · rw [if_pos hd]
    have h1 : (['/'] : List Char).dropWhile (fun c => c ≠ '/') = ['/'] := by decide
    rw [h1]
    decide
  · rw [if_neg hd]
    set d := t.reverse.dropWhile (fun c => c ≠ '/') with hdef
    have hrd : (d ++ ['/']).reverse = '/' :: d.reverse := by simp
    rw [hrd]
    by_cases hall : (('/' : Char) :: d.reverse).all (fun c => c = '/') = true
    · rw [if_neg (fun hcond => hcond.2 hall)]
      simp [isabsL]
    · rw [if_pos ⟨List.cons_ne_nil _ _, fun hh => hall hh⟩]
      unfold rstripSlash
      have h2 : (('/' : Char) :: d.reverse).reverse = d ++ ['/'] := by simp
      rw [h2]
      have he : d.dropWhile (fun c => c = '/') ≠ [] := by
        intro he0
        apply hall
        rw [List.dropWhile_eq_nil_iff] at he0
        rw [List.all_eq_true]
        intro x hx
        rcases List.mem_cons.1 hx with rfl | hx'
        · simp
        · exact he0 x (List.mem_reverse.1 hx')
      rw [List.dropWhile_append, if_neg (by simpa [List.isEmpty_iff] using he)]
      obtain ⟨y, ys, hy⟩ : ∃ y ys, d.dropWhile (fun c => c = '/') = y :: ys := by
        cases hcase : d.dropWhile (fun c => c = '/') with
        | nil => exact absurd hcase he
        | cons y ys => exact ⟨y, ys, rfl⟩
      rw [hy]
      have h3 : ((y :: ys) ++ ['/']).reverse = '/' :: (ys.reverse ++ [y]) := by simp
      rw [h3]
      simp [isabsL]

theorem dirnameL_slashes_append (k : Nat) (c : List Char) (hk : k ≠ 0)
    (hc : '/' ∉ c) : dirnameL (List.replicate k '/' ++ c) = List.replicate k '/' := by
  have hnoslash : ∀ x ∈ c.reverse, x ≠ '/' := fun x hx e =>
    hc (e ▸ List.mem_reverse.1 hx)
  rw [dirnameL_eq]
  rw [show (List.replicate k '/' ++ c).reverse = c.reverse ++ List.replicate k '/' by
    simp [List.reverse_append, List.reverse_replicate]]
  rw [dropWhile_ne_slash_append _ _ hnoslash]
  have hstop : (List.replicate k '/').dropWhile (fun c => c ≠ '/') = List.replicate k '/' := by
    cases k with
    | zero => exact absurd rfl hk
    | succ n =>
      rw [List.replicate_succ, List.dropWhile_cons]
      simp
  rw [hstop, List.reverse_replicate]
  rw [if_neg]
  intro hcond
  apply hcond.2
  rw [List.all_eq_true]
  intro x hx
  rw [List.mem_replicate] at hx
  simp [hx.2]

theorem dirnameL_append_slash_comp (A c : List Char) (hc : '/' ∉ c)
    (hA : ∃ x, x ∈ A ∧ x ≠ '/')
    (hstop : A.reverse.dropWhile (fun c => c = '/') = A.reverse) :
    dirnameL (A ++ '/' :: c) = A := by
  have hnoslash : ∀ x ∈ c.reverse, x ≠ '/' := fun x hx e =>
    hc (e ▸ List.mem_reverse.1 hx)
  rw [dirnameL_eq]
  rw [show (A ++ '/' :: c).reverse = c.reverse ++ ('/' :: A.reverse) by simp]
  rw [dropWhile_ne_slash_append _ _ hnoslash, dropWhile_ne_slash_slash_head]
  rw [show ('/' :: A.reverse).reverse = A ++ ['/'] by simp]
  obtain ⟨x, hxA, hxs⟩ := hA
  rw [if_pos]
  · rw [show rstripSlash (A ++ ['/'])
        = (((A ++ ['/']).reverse).dropWhile (fun c => c = '/')).reverse from rfl]
    rw [show (A ++ ['/']).reverse = '/' :: A.reverse by simp]
    rw [List.dropWhile_cons]
    rw [if_pos (by simp)]
    rw [hstop, List.reverse_reverse]
  · refine ⟨by simp, ?_⟩
    intro hall
    rw [List.all_eq_true] at hall
    have := hall x (List.mem_append_left _ hxA)
    rw [decide_eq_true_eq] at this
    exact hxs this

/-- `dirname` maps a normalised absolute path to a normalised absolute path
(its parent directory). -/
theorem normalizedAbs_dirname (p : List Char) (h : NormalizedAbs p) :
    NormalizedAbs (dirnameL p) := by
  obtain ⟨k, comps, hk, hg, rfl⟩ := h
  have hk0 : k ≠ 0 := by rcases hk with rfl | rfl <;> decide
  rcases List.eq_nil_or_concat comps with rfl | ⟨cs, c, rfl⟩
  · rcases hk with rfl | rfl
    · exact ⟨1, [], Or.inl rfl, by simp, by decide⟩
    · exact ⟨2, [], Or.inr rfl, by simp, by decide⟩
  · rw [List.concat_eq_append] at hg ⊢
    have hgc : GoodComp c := hg c (by simp)
    have hgcs : ∀ e ∈ cs, GoodComp e := fun e he => hg e (by simp [he])
    obtain ⟨-, -, -, hc4⟩ := hgc
    by_cases hcs : cs = []
    · subst hcs
      rw [show joinComps ([] ++ [c]) = c from rfl]
      rw [dirnameL_slashes_append k c hk0 hc4]
      exact ⟨k, [], hk, by simp, by simp [joinComps]⟩
    · have hjoin : joinComps (cs ++ [c]) = joinComps cs ++ '/' :: c := by
        rw [joinComps_concat, if_neg hcs]
      rw [hjoin, ← List.append_assoc]
      rcases joinComps_shape cs hgcs with ⟨he0, -⟩ | ⟨x, l', hx1, hx2⟩
      · exact absurd he0 hcs
      · have hxA : x ∈ List.replicate k '/' ++ joinComps cs := by
          rw [hx1]
          exact List.mem_append_right _ (List.mem_cons_self x l')
        obtain ⟨d, l₂, hdl, hd⟩ := getLast_joinComps_ne_slash cs hcs hgcs
        have hstop : (List.replicate k '/' ++ joinComps cs).reverse.dropWhile
            (fun c => c = '/') = (List.replicate k '/' ++ joinComps cs).reverse := by
          rw [show (List.replicate k '/' ++ joinComps cs).reverse
              = (joinComps cs).reverse ++ List.replicate k '/' by
            simp [List.reverse_append, List.reverse_replicate]]
          rw [hdl, List.cons_append]
          exact dropWhile_slash_head d _ hd
        rw [dirnameL_append_slash_comp _ c hc4 ⟨x, hxA, hx2⟩ hstop]
        exact ⟨k, cs, hk, hgcs, rfl⟩

theorem normalizedAbs_isabs (p : List Char) (h : NormalizedAbs p) :
    isabsL p = true := by
  obtain ⟨k, comps, hk, -, rfl⟩ := h
  rcases hk with rfl | rfl <;> simp [isabsL, List.replicate_succ]

/-- When the module file path is absolute (as interpreter-supplied `__file__`
values of imported modules are), the working directory plays no role in the
result: `abspath` takes its already-absolute branch. -/
theorem get_html_theme_path_cwd_irrelevant (file : String)
    (hfile : isabsL file.data = true) (cwd₁ cwd₂ : String) :
    get_html_theme_path file cwd₁ = get_html_theme_path file cwd₂ := by
  have h2 : isabsL (dirnameL (dirnameL file.data)) = true :=
    isabs_dirnameL _ (isabs_dirnameL _ hfile)
  show [(⟨abspathL (dirnameL (dirnameL file.data)) cwd₁.data⟩ : String)]
      = [(⟨abspathL (dirnameL (dirnameL file.data)) cwd₂.data⟩ : String)]
  rw [abspathL_of_isabs _ _ h2, abspathL_of_isabs _ _ h2]

/-! ### Claim theorems -/

/-- Claim C1: for every call, `get_html_theme_path()` returns the absolute
path of the parent directory of the directory containing the defining module
(two `dirname` applications to `__file__`, made absolute by `abspath`),
wrapped as the sole element of the returned sequence.  The working directory
returned by `os.getcwd()` is always absolute, hence the hypothesis on
`cwd`. -/
theorem get_html_theme_path_returns_abs_parent_of_parent (file cwd : String)
    (hcwd : os.path.isabs cwd = true) :
    get_html_theme_path file cwd
      = [os.path.abspath (os.path.dirname (os.path.dirname file)) cwd] ∧
    ∀ q ∈ get_html_theme_path file cwd, os.path.isabs q = true := by
  refine ⟨rfl, ?_⟩
  intro q hq
  have he : q = os.path.abspath (os.path.dirname (os.path.dirname file)) cwd := by
    simpa [get_html_theme_path] using hq
  rw [he]
  exact isabs_abspathL (dirnameL (dirnameL file.data)) cwd.data hcwd

theorem get_html_theme_path_returns_abs_parent_of_parent_witness :
    get_html_theme_path "/x/y/_themes/conan/__init__.py" "/home/user"
      = [os.path.abspath (os.path.dirname (os.path.dirname
          "/x/y/_themes/conan/__init__.py")) "/home/user"] ∧
    ∀ q ∈ get_html_theme_path "/x/y/_themes/conan/__init__.py" "/home/user",
      os.path.isabs q = true :=
  get_html_theme_path_returns_abs_parent_of_parent
    "/x/y/_themes/conan/__init__.py" "/home/user" (by decide)

/-- Claim C2: with the module file at `/x/y/_themes/conan/__init__`, the call
returns exactly `["/x/y/_themes"]`, whatever the working directory is. -/
theorem get_html_theme_path_concrete_scenario (cwd : String) :
    get_html_theme_path "/x/y/_themes/conan/__init__" cwd = ["/x/y/_themes"] := by
  have h1 : abspathL (dirnameL (dirnameL "/x/y/_themes/conan/__init__".data)) cwd.data
      = normpathL (dirnameL (dirnameL "/x/y/_themes/conan/__init__".data)) :=
    abspathL_of_isabs _ _ (by decide)
  have h2 : normpathL (dirnameL (dirnameL "/x/y/_themes/conan/__init__".data))
      = "/x/y/_themes".data := by decide
  show [(⟨abspathL (dirnameL (dirnameL "/x/y/_themes/conan/__init__".data)) cwd.data⟩
      : String)] = ["/x/y/_themes"]
  rw [h1, h2]

/-- Claim C3: the returned value is a non-empty sequence with exactly one
element, and that element is an absolute path (given that `os.getcwd()`
yields an absolute path, which POSIX guarantees). -/
theorem get_html_theme_path_singleton_abs (file cwd : String)
    (hcwd : os.path.isabs cwd = true) :
    (get_html_theme_path file cwd).length = 1 ∧
    ∃ q, get_html_theme_path file cwd = [q] ∧ os.path.isabs q = true := by
  refine ⟨rfl, os.path.abspath (os.path.dirname (os.path.dirname file)) cwd, rfl, ?_⟩
  exact isabs_abspathL (dirnameL (dirnameL file.data)) cwd.data hcwd

theorem get_html_theme_path_singleton_abs_witness :
    (get_html_theme_path "/a/b/c.py" "/").length = 1 ∧
    ∃ q, get_html_theme_path "/a/b/c.py" "/" = [q] ∧ os.path.isabs q = true :=
  get_html_theme_path_singleton_abs "/a/b/c.py" "/" (by decide)

/-- Claim C4: within one process `__file__` is fixed (and absolute, for a
module imported from disk), so repeated calls agree even if the working
directory changed between them: the computation never leaves `abspath`'s
absolute branch. -/
theorem get_html_theme_path_stable (file : String)
    (hfile : os.path.isabs file = true) (cwd₁ cwd₂ : String) :
    get_html_theme_path file cwd₁ = get_html_theme_path file cwd₂ :=
  get_html_theme_path_cwd_irrelevant file hfile cwd₁ cwd₂

theorem get_html_theme_path_stable_witness :
    get_html_theme_path "/x/y/_themes/conan/__init__.py" "/tmp"
      = get_html_theme_path "/x/y/_themes/conan/__init__.py" "/opt" :=
  get_html_theme_path_stable "/x/y/_themes/conan/__init__.py" (by decide) "/tmp" "/opt"

/-- Claim C5: once the module's location is determinable (`__file__` is
defined, here: a `file` string exists at all), the call raises nothing: every
operation in the body is total path arithmetic, so the outcome is always
`Except.ok`, a one-element list. -/
theorem get_html_theme_path_never_raises (file : String) (s : ProcessState) :
    ∃ xs, (get_html_theme_pathS file s).1 = Except.ok xs ∧ xs.length = 1 :=
  ⟨get_html_theme_path file s.cwd, rfl, rfl⟩

/-- Claim C6: `setup(app)` returns `None` and raises nothing, for an `app`
handle of any type whatsoever — including a null/placeholder handle such as
`Option.none`. -/
theorem setup_returns_none_never_raises :
    (∀ (α : Type) (app : α), setup app = Except.ok NoneType.none) ∧
    setup (Option.none : Option Unit) = Except.ok NoneType.none :=
  ⟨fun _ _ => rfl, rfl⟩

/-- Claim C7: `setup(app)` performs no action: for every input the observable
process state after the call is exactly the state before it, and the call
produces only the `None` result. -/
theorem setup_no_side_effects :
    ∀ (α : Type) (app : α) (s : ProcessState),
      setupS app s = (Except.ok NoneType.none, s) :=
  fun _ _ _ => rfl

/-- Claim C8: both operations are pure with respect to process state: neither
mutates the state, and for an absolute `__file__` (the interpreter guarantee
for modules imported from disk) the result of `get_html_theme_path` is
independent of all process state, the working directory included. -/
theorem operations_pure_wrt_process_state (file : String)
    (hfile : os.path.isabs file = true) {α : Type} (app : α)
    (s s₁ s₂ : ProcessState) :
    (setupS app s).2 = s ∧ (get_html_theme_pathS file s).2 = s ∧
    (get_html_theme_pathS file s₁).1 = (get_html_theme_pathS file s₂).1 := by
  refine ⟨rfl, rfl, ?_⟩
  show Except.ok (get_html_theme_path file s₁.cwd)
      = Except.ok (get_html_theme_path file s₂.cwd)
  rw [get_html_theme_path_cwd_irrelevant file hfile s₁.cwd s₂.cwd]

theorem operations_pure_wrt_process_state_witness :
    (setupS (42 : Nat) ⟨"/", []⟩).2 = (⟨"/", []⟩ : ProcessState) ∧
    (get_html_theme_pathS "/a/b.py" ⟨"/", []⟩).2 = (⟨"/", []⟩ : ProcessState) ∧
    (get_html_theme_pathS "/a/b.py" ⟨"/u", [("HOME", "/u")]⟩).1
      = (get_html_theme_pathS "/a/b.py" ⟨"/v", []⟩).1 :=
  operations_pure_wrt_process_state "/a/b.py" (by decide) (42 : Nat)
    ⟨"/", []⟩ ⟨"/u", [("HOME", "/u")]⟩ ⟨"/v", []⟩

/-- Claim C9: if the module was loaded from disk — so `__file__` is a
normalised absolute path naming an existing file, and every ancestor
directory of an existing path exists — then the single returned path exists
on disk, although the code performs no validation beyond path arithmetic. -/
theorem returned_path_exists_on_disk (fs : String → Prop) (file cwd : String)
    (hnorm : NormalizedAbs file.data) (hfs : fs file)
    (hclosed : ∀ p, fs p → fs (os.path.dirname p)) :
    ∀ q ∈ get_html_theme_path file cwd, fs q := by
  intro q hq
  have he : q = os.path.abspath (os.path.dirname (os.path.dirname file)) cwd := by
    simpa [get_html_theme_path] using hq
  have h2 : NormalizedAbs (dirnameL (dirnameL file.data)) :=
    normalizedAbs_dirname _ (normalizedAbs_dirname _ hnorm)
  have h3 : os.path.abspath (os.path.dirname (os.path.dirname file)) cwd
      = os.path.dirname (os.path.dirname file) := by
    show (⟨abspathL (dirnameL (dirnameL file.data)) cwd.data⟩ : String)
        = os.path.dirname (os.path.dirname file)
    rw [abspathL_of_isabs _ _ (normalizedAbs_isabs _ h2),
        normalizedAbs_normpath _ h2]
    rfl
  rw [he, h3]
  exact hclosed _ (hclosed _ hfs)

theorem returned_path_exists_on_disk_witness :
    "/x/y/_themes" ∈ (["/x/y/_themes/conan/__init__.py", "/x/y/_themes/conan",
      "/x/y/_themes", "/x/y", "/x", "/"] : List String) :=
  returned_path_exists_on_disk
    (fun p => p ∈ (["/x/y/_themes/conan/__init__.py", "/x/y/_themes/conan",
      "/x/y/_themes", "/x/y", "/x", "/"] : List String))
    "/x/y/_themes/conan/__init__.py" "/cwd"
    ⟨1, ["x".data, "y".data, "_themes".data, "conan".data, "__init__.py".data],
      Or.inl rfl, by decide, by decide⟩
    (by decide)
    (by intro p hp; fin_cases hp <;> decide)
    "/x/y/_themes" (by decide)

/-- Claim C10: the two version constants of the module are equal to each
other and both equal the fixed string `0.2.0`. -/
theorem version_constants_equal :
    __version_full__ = __version__ ∧ __version__ = "0.2.0" :=
  ⟨rfl, rfl⟩
